import Mathlib

/-!
Verification of the rendering core in src/Renderer.h (FractalTracer).

The embedding models the C++ `real` scalar type by the rationals: every
arithmetic operation performed by the renderer on `real` values (addition,
multiplication, division, comparison, min, max) is mirrored exactly, and the
single IEEE value `real_inf` used as the "no hit" sentinel is modelled by the
top element of `WithTop ℚ`.  32-bit unsigned arithmetic in the hash is
modelled by `Nat` with explicit reduction modulo 2^32.  The transcendental
library functions (std::sqrt, std::cos, std::sin, std::tan) and the vector
`normalise` helper are declared in headers that are not part of src/, so they
are passed in as an explicit record of operations.
-/

namespace FractalTracer

/-- The scalar type `real` of the renderer, modelled exactly by the rationals. -/
abbrev real := ℚ

/-- The extended scalar type: `real` together with the IEEE infinity
`real_inf` used by `nearestIntersection` as its initial nearest distance. -/
abbrev realInf := WithTop real

/-- A 3-component vector, used for positions, directions and colours
(`vec3r` / `vec3f` in the source; both are modelled over the same scalars). -/
structure Vec3 where
  x : real
  y : real
  z : real

instance : Zero Vec3 := ⟨⟨0, 0, 0⟩⟩

instance : One Vec3 := ⟨⟨1, 1, 1⟩⟩

instance : Add Vec3 := ⟨fun a b => ⟨a.x + b.x, a.y + b.y, a.z + b.z⟩⟩

instance : Sub Vec3 := ⟨fun a b => ⟨a.x - b.x, a.y - b.y, a.z - b.z⟩⟩

instance : Neg Vec3 := ⟨fun a => ⟨-a.x, -a.y, -a.z⟩⟩

/-- Componentwise product, as used for colour/throughput accumulation. -/
instance : Mul Vec3 := ⟨fun a b => ⟨a.x * b.x, a.y * b.y, a.z * b.z⟩⟩

/-- Vector-times-scalar product. -/
instance : HMul Vec3 real Vec3 := ⟨fun v q => ⟨v.x * q, v.y * q, v.z * q⟩⟩

/-- Vector-divided-by-scalar. -/
instance : HDiv Vec3 real Vec3 := ⟨fun v q => ⟨v.x / q, v.y / q, v.z / q⟩⟩

/-- Dot product of two vectors. -/
def dot (a b : Vec3) : real := a.x * b.x + a.y * b.y + a.z * b.z

/-- Cross product of two vectors. -/
def cross (a b : Vec3) : Vec3 :=
  ⟨a.y * b.z - a.z * b.y, a.z * b.x - a.x * b.z, a.x * b.y - a.y * b.x⟩

/-- A ray: origin and direction. -/
structure Ray where
  o : Vec3
  d : Vec3

/-- Modelled from the spec: the abstract scene-object capability set
\x7bintersect, getNormal, colour\x7d.  The concrete geometry lives in
SceneObject.h, which is not under src/; per the spec, `intersect` reports an
optional positive distance, encoded here as `WithTop real` with `⊤` standing
for the "no hit" value `real_inf`. -/
structure SceneObject where
  intersect : Ray → realInf
  getNormal : Vec3 → Vec3
  colour : Vec3

/-- Modelled from the spec: the fixed self-intersection epsilon
`ray_epsilon`.  Its numeric value is declared outside src/; the claims only
depend on it being a fixed constant, modelled here as an arbitrary small
positive rational. -/
def ray_epsilon : real := 1 / 1000000

/-- A scene: an ordered collection of scene objects. -/
structure Scene where
  objects : List SceneObject

/-- One step of the nearest-intersection scan of `Scene::nearestIntersection`:
given the current (nearest object, nearest distance) accumulator and the next
object, replace the accumulator when the object reports
`hit_t > ray_epsilon && hit_t < nearest_t`. -/
def niStep (r : Ray) (acc : Option SceneObject × realInf) (o : SceneObject) :
    Option SceneObject × realInf :=
  let hit_t := o.intersect r
  if (ray_epsilon : realInf) < hit_t ∧ hit_t < acc.2 then (some o, hit_t) else acc

/-- `Scene::nearestIntersection` (Renderer.h lines 13-29): linear scan over
all objects, starting from (nullptr, real_inf). -/
def Scene.nearestIntersection (s : Scene) (r : Ray) : Option SceneObject × realInf :=
  s.objects.foldl (niStep r) (none, ⊤)

/-- An object reports a usable hit for ray `r` when its reported distance is
strictly greater than `ray_epsilon` and is an actual (finite) distance. -/
def isValidHit (r : Ray) (o : SceneObject) : Bool :=
  decide ((ray_epsilon : realInf) < o.intersect r ∧ o.intersect r ≠ ⊤)

/-- The minimum reported distance among the objects of `l` reporting a valid
hit for `r` (`⊤` when there is none). -/
def minValidT (r : Ray) (l : List SceneObject) : realInf :=
  ((l.filter (fun o => isValidHit r o)).map (fun o => o.intersect r)).foldr min ⊤

/-- The first object of a list reporting a valid hit at exactly distance `m`. -/
def minPred (r : Ray) (m : realInf) (o : SceneObject) : Bool :=
  isValidHit r o && decide (o.intersect r = m)

/-- A sample object used to instantiate theorems: it reports a hit at
distance 3 for every ray. -/
def testObj : SceneObject :=
  ⟨fun _ => ((3 : real) : realInf), fun _ => ⟨0, 1, 0⟩, ⟨1, 1, 1⟩⟩

/-- A sample one-object scene. -/
def testScene : Scene := ⟨[testObj]⟩

/-- A sample ray. -/
def testRay : Ray := ⟨⟨0, 0, 0⟩, ⟨0, 0, 1⟩⟩

/-- Thomas Wang's 32-bit integer hash (Renderer.h lines 37-45); `uint32_t`
arithmetic is modelled by naturals reduced modulo 2^32 at every operation
that can wrap. -/
def hash (x : ℕ) : ℕ :=
  let x0 := x % 4294967296
  let x1 := ((x0 ^^^ 12345391) * 2654435769) % 4294967296
  let x2 := x1 ^^^ (((x1 <<< 6) % 4294967296) ^^^ (x1 >>> 26))
  let x3 := (x2 * 2654435769) % 4294967296
  (x3 + (((x3 <<< 5) % 4294967296) ^^^ (x3 >>> 12))) % 4294967296

/-- Modelled from the spec: the fixed Thomas Wang avalanche mix, written out
from the spec's description — a multiply-xor-shift-multiply-add structure
over wrapping 32-bit arithmetic with multiplier 2654435769, xor-additive
constant 12345391 and shift amounts 6, 26, 12 and 5. -/
def wangMixSpec (x : ℕ) : ℕ :=
  let y0 := x % 4294967296
  let y1 := ((y0 ^^^ 12345391) * 2654435769) % 4294967296
  let y2 := y1 ^^^ (((y1 <<< 6) % 4294967296) ^^^ (y1 >>> 26))
  let y3 := (y2 * 2654435769) % 4294967296
  (y3 + (((y3 <<< 5) % 4294967296) ^^^ (y3 >>> 12))) % 4294967296

/-- Modelled from the spec: the PBRT constant `DoubleOneMinusEpsilon`, the
largest representable double strictly below 1, i.e. `1 - 2 ^ (-53)`; its
definition lives in a header outside src/. -/
def DoubleOneMinusEpsilon : real := 1 - (1 / 2) ^ 53

/-- The digit-reversal loop of `RadicalInverse` (Renderer.h lines 55-62),
carrying the running reversed digits and the running `invBase` power.  The
source loop runs while `a != 0`; it never terminates for `base <= 1`, but the
renderer only ever calls it with prime bases, so the model simply stops in
that unreachable case. -/
def radicalLoop (base : ℕ) (invBase : real) (a reversedDigits : ℕ)
    (invBaseN : real) : ℕ × real :=
  if h : a = 0 ∨ base ≤ 1 then (reversedDigits, invBaseN)
  else
    let next := a / base
    let digit := a - base * next
    radicalLoop base invBase next (reversedDigits * base + digit) (invBaseN * invBase)
termination_by a
decreasing_by
  push_neg at h
  exact Nat.div_lt_self (Nat.pos_of_ne_zero h.1) (by omega)

/-- `RadicalInverse` (Renderer.h lines 49-65): reverse the base-`base` digits
of `a`, interpret them as a fraction, and cap the result just below 1. -/
def RadicalInverse (a base : ℕ) : real :=
  let invBase : real := 1 / (base : real)
  let p := radicalLoop base invBase a 0 1
  min ((p.1 : real) * p.2) DoubleOneMinusEpsilon

/-- `wrap01` (Renderer.h line 86): toroidal addition on the unit interval. -/
def wrap01 (u v : real) : real := if u + v < 1 then u + v else u + v - 1

/-- Modelled from the spec: the real-valued library functions used by the
renderer (std::sqrt, std::cos, std::sin, std::tan and the vector `normalise`
helper).  Their floating-point implementations are library code outside
src/, so they are threaded through the embedding as explicit parameters; the
claims settled here hold for every interpretation, with any analytic fact a
claim needs (such as normalised directions having a bounded y component)
stated as an explicit hypothesis. -/
structure MathOps where
  sqrt : real → real
  cos : real → real
  sin : real → real
  tan : real → real
  normalise : Vec3 → Vec3

instance (o : Option SceneObject) : Decidable (o = none) :=
  Option.decidableEqNone

/-- The zenith colour of the sky gradient (Renderer.h line 137). -/
def sky_up : Vec3 := (⟨0.02, 0.05, 0.1⟩ : Vec3) * (2 : real)

/-- The horizon colour of the sky gradient (Renderer.h line 138). -/
def sky_hz : Vec3 := (⟨0.05, 0.07, 0.1⟩ : Vec3) * (2 : real)

/-- The sky gradient (Renderer.h line 139): the two tones interpolated by
the clamped vertical component of the ray direction. -/
def skyColour (d : Vec3) : Vec3 := sky_hz + (sky_up - sky_hz) * max 0 d.y

/-- The fixed point light position (Renderer.h line 153). -/
def light_pos : Vec3 := ⟨8, 12, -6⟩

/-- Vector from an intersection point to the light (line 154). -/
def lightVec (hit_p : Vec3) : Vec3 := light_pos - hit_p

/-- Squared distance from an intersection point to the light (line 155). -/
def lightLn2 (hit_p : Vec3) : real := dot (lightVec hit_p) (lightVec hit_p)

/-- Distance from an intersection point to the light (line 156). -/
def lightLen (ops : MathOps) (hit_p : Vec3) : real := ops.sqrt (lightLn2 hit_p)

/-- Unit direction from an intersection point to the light (line 157). -/
def lightDir (ops : MathOps) (hit_p : Vec3) : Vec3 :=
  lightVec hit_p * (1 / lightLen ops hit_p)

/-- The Lambertian direct-light term (lines 160-161): object colour times
the clamped cosine, divided by the squared distance, times the fixed
intensity constant 420. -/
def reflColour (ops : MathOps) (obj : SceneObject) (hit_p normal : Vec3) : Vec3 :=
  obj.colour * max 0 (dot normal (lightDir ops hit_p)) / lightLn2 hit_p * (420 : real)

/-- The direct-lighting block of `generateColour` (Renderer.h lines 150-171):
cast a shadow ray from the hit point toward the light and add the
throughput-scaled Lambertian term exactly when the shadow ray hits nothing or
hits at or beyond the light's distance. -/
def directLight (ops : MathOps) (world : Scene) (obj : SceneObject)
    (hit_p normal throughput contribution : Vec3) : Vec3 :=
  let shadow_ray : Ray := ⟨hit_p, lightDir ops hit_p⟩
  let res := world.nearestIntersection shadow_ray
  if res.1 = none ∨ ((lightLen ops hit_p : real) : realInf) ≤ res.2 then
    contribution + throughput * reflColour ops obj hit_p normal
  else contribution

/-- The fixed bounce cap (Renderer.h line 91). -/
def max_bounces : ℕ := 3

/-- The number of prime bases (Renderer.h line 92), kept reducible so that
`Fin num_primes` indexing works with numeric literals. -/
abbrev num_primes : ℕ := 6

/-- The prime bases of the Halton sampler (Renderer.h line 93). -/
def primes : Fin num_primes → ℕ := ![2, 3, 5, 7, 11, 13]

/-- The prime base consumed by sampling dimension `k` of the bounce with
counter value `bounce` (Renderer.h lines 176-177): the prime at cyclic
offset `3 + bounce * 2 + k` within the base list. -/
def reflBase (bounce k : ℕ) : ℕ :=
  primes ⟨(3 + bounce * 2 + k) % num_primes, Nat.mod_lt _ (by norm_num)⟩

/-- A diffuse-scatter sample (Renderer.h lines 176-177): the radical inverse
of the pass index in the bounce's cyclically chosen prime base, combined with
the per-pixel hash offset by toroidal addition. -/
def reflSample (pass : ℕ) (hash_random : real) (bounce k : ℕ) : real :=
  wrap01 (RadicalInverse pass (reflBase bounce k)) hash_random

/-- The literal 2*pi used for the scatter azimuth (Renderer.h line 180). -/
def twoPi : real := 6.283185307179586476925286766559

/-- The diffuse scatter direction (Renderer.h lines 176-190): a uniform
point on the unit sphere from the two bounce samples, added to the normal
and normalised, giving a cosine-weighted exitant direction. -/
def scatterDir (ops : MathOps) (pass : ℕ) (hash_random : real) (bounce : ℕ)
    (normal : Vec3) : Vec3 :=
  let refl_sample_x := reflSample pass hash_random bounce 0
  let refl_sample_y := reflSample pass hash_random bounce 1
  let a := refl_sample_x * twoPi
  let s := 2 * ops.sqrt (max 0 (refl_sample_y * (1 - refl_sample_y)))
  let sphere : Vec3 := ⟨ops.cos a * s, ops.sin a * s, 1 - 2 * refl_sample_y⟩
  ops.normalise (normal + sphere)

/-- The bounce loop of `generateColour` (Renderer.h lines 128-198), with the
loop counter `bounce` as an explicit argument, instrumented to also return
how many loop iterations (each performing exactly one primary intersection
test) were executed.  A miss accumulates the sky and stops; a hit adds direct
lighting, then either stops at the bounce cap or scatters and recurses. -/
def bounceLoop (ops : MathOps) (world : Scene) (pass : ℕ) (hash_random : real)
    (ray : Ray) (throughput contribution : Vec3) (bounce : ℕ) : Vec3 × ℕ :=
  match world.nearestIntersection ray with
  | (none, _) => (contribution + throughput * skyColour ray.d, 1)
  | (some nearest_hit_obj, t) =>
    let nearest_hit_t := t.untop' 0
    let hit_p := ray.o + ray.d * nearest_hit_t
    let normal := nearest_hit_obj.getNormal hit_p
    let contribution2 :=
      directLight ops world nearest_hit_obj hit_p normal throughput contribution
    if h : bounce + 1 > max_bounces then (contribution2, 1)
    else
      let prev := bounceLoop ops world pass hash_random
        ⟨hit_p, scatterDir ops pass hash_random (bounce + 1) normal⟩
        (throughput * nearest_hit_obj.colour) contribution2 (bounce + 1)
      (prev.1, prev.2 + 1)
termination_by max_bounces + 1 - bounce
decreasing_by
  simp only [max_bounces] at h ⊢
  omega

/-- The per-pixel scale 1 / 2^32 of `uintToUnitReal` (Renderer.h line 71). -/
def uint32_double_scale : real := 1 / 4294967296

/-- `uintToUnitReal` (Renderer.h lines 68-83), in its direct-scaling
(USE_DOUBLE) form; the single-precision bit-pattern branch manipulates IEEE
representations and is not modelled. -/
def uintToUnitReal (v : ℕ) : real := (v : real) * uint32_double_scale

/-- The per-pixel hash-derived Halton offset (Renderer.h line 104). -/
def pixelHashRandom (x y frame width height : ℕ) : real :=
  uintToUnitReal (hash (frame * width * height + y * width + x))

/-- The float literal used for pi by the camera code (Renderer.h line 97). -/
def piLit : real := 3.14159265359

/-- The primary camera ray (Renderer.h lines 95-122): orbiting camera,
pinhole projection, jittered sub-pixel position. -/
def cameraRay (ops : MathOps) (x y frame pass width height : ℕ)
    (frames : ℤ) : Ray :=
  let aspect_ratio : real := (width : real) / (height : real)
  let fov_deg : real := 80
  let fov_rad : real := fov_deg * piLit / 180
  let sensor_width : real := 2 * ops.tan (fov_rad / 2)
  let sensor_height : real := sensor_width / aspect_ratio
  let cam_lookat : Vec3 := ⟨0, 0, 0⟩
  let world_up : Vec3 := ⟨0, 1, 0⟩
  let hash_random : real := pixelHashRandom x y frame width height
  let pixel_sample_x := wrap01 (RadicalInverse pass (primes 0)) hash_random
  let pixel_sample_y := wrap01 (RadicalInverse pass (primes 1)) hash_random
  let pixel_sample_t := wrap01 (RadicalInverse pass (primes 2)) hash_random
  let time : real :=
    if frames ≤ 0 then 0
    else 2 * piLit * ((frame : real) + pixel_sample_t) / ((frames : ℤ) : real)
  let cos_t := ops.cos time
  let sin_t := ops.sin time
  let cam_pos : Vec3 :=
    (⟨4 * cos_t + 10 * sin_t, 5, -10 * cos_t + 4 * sin_t⟩ : Vec3) * (0.25 : real)
  let cam_forward := ops.normalise (cam_lookat - cam_pos)
  let cam_right := cross world_up cam_forward
  let cam_up := cross cam_forward cam_right
  let pixel_x := cam_right * (sensor_width / (width : real))
  let pixel_y := cam_up * (-(sensor_height / (height : real)))
  let pixel_v := cam_forward +
    pixel_x * ((x : real) - (width : real) * 0.5 + pixel_sample_x) +
    pixel_y * ((y : real) - (height : real) * 0.5 + pixel_sample_y)
  ⟨cam_pos, ops.normalise pixel_v⟩

/-- `generateColour` (Renderer.h lines 89-201): build the primary camera ray
and run the bounce loop from throughput 1, contribution 0, bounce counter 0. -/
def generateColour (ops : MathOps) (x y frame pass width height : ℕ)
    (frames : ℤ) (world : Scene) : Vec3 :=
  (bounceLoop ops world pass (pixelHashRandom x y frame width height)
    (cameraRay ops x y frame pass width height frames) 1 0 0).1

/-- Componentwise non-negativity of a vector (colour). -/
def Vec3.Nonneg (v : Vec3) : Prop := 0 ≤ v.x ∧ 0 ≤ v.y ∧ 0 ≤ v.z

/-- A sample interpretation of the library math operations, used to
instantiate theorems at concrete inputs. -/
def testOps : MathOps :=
  ⟨fun _ => 0, fun _ => 0, fun _ => 0, fun _ => 0, fun _ => ⟨0, 0, 0⟩⟩

/-- The scene with no objects. -/
def emptyScene : Scene := ⟨[]⟩

lemma niStep_select (r : Ray) (acc : Option SceneObject × realInf) (o : SceneObject)
    (h1 : (ray_epsilon : realInf) < o.intersect r) (h2 : o.intersect r < acc.2) :
    niStep r acc o = (some o, o.intersect r) := by
  simp only [niStep]
  rw [if_pos ⟨h1, h2⟩]

lemma niStep_keep (r : Ray) (acc : Option SceneObject × realInf) (o : SceneObject)
    (h : ¬((ray_epsilon : realInf) < o.intersect r ∧ o.intersect r < acc.2)) :
    niStep r acc o = acc := by
  simp only [niStep]
  rw [if_neg h]

lemma minValidT_nil (r : Ray) : minValidT r [] = ⊤ := rfl

lemma minValidT_cons_valid (r : Ray) (o : SceneObject) (l : List SceneObject)
    (h : isValidHit r o = true) :
    minValidT r (o :: l) = min (o.intersect r) (minValidT r l) := by
  simp [minValidT, List.filter_cons, h]

lemma minValidT_cons_invalid (r : Ray) (o : SceneObject) (l : List SceneObject)
    (h : isValidHit r o = false) :
    minValidT r (o :: l) = minValidT r l := by
  simp [minValidT, List.filter_cons, h]

lemma foldl_niStep_snd (r : Ray) :
    ∀ (l : List SceneObject) (acc : Option SceneObject × realInf),
      (l.foldl (niStep r) acc).2 = min acc.2 (minValidT r l) := by
  intro l
  induction l with
  | nil =>
    intro acc
    simp [minValidT_nil]
  | cons o l ih =>
    intro acc
    rw [List.foldl_cons, ih]
    by_cases hv : (ray_epsilon : realInf) < o.intersect r ∧ o.intersect r ≠ ⊤
    · rw [minValidT_cons_valid r o l (by simp [isValidHit, hv.1, hv.2])]
      by_cases hlt : o.intersect r < acc.2
      · rw [niStep_select r acc o hv.1 hlt, ← min_assoc,
          min_eq_right (le_of_lt hlt)]
      · rw [niStep_keep r acc o (fun hc => hlt hc.2), ← min_assoc,
          min_eq_left (le_of_not_lt hlt)]
    · have hinvalid : isValidHit r o = false := by
        simp only [isValidHit, decide_eq_false_iff_not]
        exact hv
      rw [minValidT_cons_invalid r o l hinvalid]
      have hkeep : niStep r acc o = acc := by
        apply niStep_keep
        intro hc
        rcases hc with ⟨h1, h2⟩
        exact hv ⟨h1, ne_top_of_lt h2⟩
      rw [hkeep]

lemma foldl_niStep_fst (r : Ray) :
    ∀ (l : List SceneObject) (acc : Option SceneObject × realInf),
      (l.foldl (niStep r) acc).1 =
        if minValidT r l < acc.2 then l.find? (minPred r (minValidT r l)) else acc.1 := by
  intro l
  induction l with
  | nil =>
    intro acc
    rw [List.foldl_nil, minValidT_nil, if_neg (by exact not_top_lt)]
  | cons o l ih =>
    intro acc
    rw [List.foldl_cons]
    by_cases hv : (ray_epsilon : realInf) < o.intersect r ∧ o.intersect r ≠ ⊤
    · have hvb : isValidHit r o = true := by simp [isValidHit, hv.1, hv.2]
      rw [minValidT_cons_valid r o l hvb]
      by_cases hlt : o.intersect r < acc.2
      · rw [niStep_select r acc o hv.1 hlt, ih]
        by_cases hM : minValidT r l < o.intersect r
        · have hmin : min (o.intersect r) (minValidT r l) = minValidT r l :=
            min_eq_right (le_of_lt hM)
          rw [if_pos hM, hmin, if_pos (lt_trans hM hlt)]
          have hpred : minPred r (minValidT r l) o = false := by
            simp only [minPred, Bool.and_eq_false_iff, decide_eq_false_iff_not]
            exact Or.inr (fun he => absurd (he ▸ hM) (lt_irrefl _))
          rw [List.find?_cons_of_neg _ (by rw [hpred]; exact Bool.false_ne_true)]
        · have hmin : min (o.intersect r) (minValidT r l) = o.intersect r :=
            min_eq_left (le_of_not_lt hM)
          rw [if_neg hM, hmin, if_pos hlt]
          have hpred : minPred r (o.intersect r) o = true := by
            simp [minPred, hvb]
          rw [List.find?_cons_of_pos _ hpred]
      · rw [niStep_keep r acc o (fun hc => hlt hc.2), ih]
        have hacc : acc.2 ≤ o.intersect r := le_of_not_lt hlt
        by_cases hM : minValidT r l < acc.2
        · have hMo : minValidT r l < o.intersect r := lt_of_lt_of_le hM hacc
          have hmin : min (o.intersect r) (minValidT r l) = minValidT r l :=
            min_eq_right (le_of_lt hMo)
          rw [if_pos hM, hmin, if_pos hM]
          have hpred : minPred r (minValidT r l) o = false := by
            simp only [minPred, Bool.and_eq_false_iff, decide_eq_false_iff_not]
            exact Or.inr (fun he => absurd (he ▸ hMo) (lt_irrefl _))
          rw [List.find?_cons_of_neg _ (by rw [hpred]; exact Bool.false_ne_true)]
        · rw [if_neg hM]
          have : ¬ min (o.intersect r) (minValidT r l) < acc.2 := by
            rw [min_lt_iff]
            rintro (h | h)
            · exact hlt h
            · exact hM h
          rw [if_neg this]
    · have hinvalid : isValidHit r o = false := by
        simp only [isValidHit, decide_eq_false_iff_not]
        exact hv
      rw [minValidT_cons_invalid r o l hinvalid]
      have hkeep : niStep r acc o = acc := by
        apply niStep_keep
        intro hc
        exact hv ⟨hc.1, ne_top_of_lt hc.2⟩
      rw [hkeep, ih]
      have hpred : minPred r (minValidT r l) o = false := by
        simp [minPred, hinvalid]
      rw [List.find?_cons_of_neg _ (by rw [hpred]; exact Bool.false_ne_true)]

lemma foldr_min_top_attained :
    ∀ (xs : List realInf), xs.foldr min ⊤ = ⊤ ∨ xs.foldr min ⊤ ∈ xs := by
  intro xs
  induction xs with
  | nil => exact Or.inl rfl
  | cons x xs ih =>
    rw [List.foldr_cons]
    rcases ih with h | h
    · rw [h, min_eq_left le_top]
      exact Or.inr (List.mem_cons_self x xs)
    · rcases le_total x (xs.foldr min ⊤) with hle | hle
      · rw [min_eq_left hle]
        exact Or.inr (List.mem_cons_self x xs)
      · rw [min_eq_right hle]
        exact Or.inr (List.mem_cons_of_mem x h)

lemma foldr_min_top_le {xs : List realInf} {x : realInf} (hx : x ∈ xs) :
    xs.foldr min ⊤ ≤ x := by
  induction xs with
  | nil => cases hx
  | cons y ys ih =>
    rw [List.foldr_cons]
    rcases List.mem_cons.mp hx with rfl | h
    · exact min_le_left _ _
    · exact le_trans (min_le_right _ _) (ih h)

lemma minValidT_attained (r : Ray) (l : List SceneObject) :
    minValidT r l = ⊤ ∨
      ∃ o ∈ l, isValidHit r o = true ∧ o.intersect r = minValidT r l := by
  rcases foldr_min_top_attained
      ((l.filter (fun o => isValidHit r o)).map (fun o => o.intersect r)) with h | h
  · exact Or.inl h
  · rcases List.mem_map.mp h with ⟨o, ho, he⟩
    rcases List.mem_filter.mp ho with ⟨hol, hov⟩
    exact Or.inr ⟨o, hol, hov, he⟩

lemma minValidT_le (r : Ray) {l : List SceneObject} {o : SceneObject}
    (ho : o ∈ l) (hv : isValidHit r o = true) :
    minValidT r l ≤ o.intersect r := by
  apply foldr_min_top_le
  exact List.mem_map.mpr ⟨o, List.mem_filter.mpr ⟨ho, hv⟩, rfl⟩

lemma minValidT_lt_iff (r : Ray) (l : List SceneObject) (c : realInf) :
    minValidT r l < c ↔ ∃ o ∈ l, isValidHit r o = true ∧ o.intersect r < c := by
  constructor
  · intro h
    rcases minValidT_attained r l with htop | ⟨o, hol, hov, he⟩
    · rw [htop] at h
      exact absurd h not_top_lt
    · exact ⟨o, hol, hov, he ▸ h⟩
  · rintro ⟨o, hol, hov, hlt⟩
    exact lt_of_le_of_lt (minValidT_le r hol hov) hlt

lemma nearestIntersection_snd (s : Scene) (r : Ray) :
    (s.nearestIntersection r).2 = minValidT r s.objects := by
  rw [Scene.nearestIntersection, foldl_niStep_snd]
  exact min_eq_right le_top

lemma nearestIntersection_fst (s : Scene) (r : Ray) :
    (s.nearestIntersection r).1 =
      s.objects.find? (minPred r (minValidT r s.objects)) := by
  rw [Scene.nearestIntersection, foldl_niStep_fst]
  by_cases h : minValidT r s.objects < (⊤ : realInf)
  · rw [if_pos h]
  · rw [if_neg h]
    have htop : minValidT r s.objects = ⊤ := by
      rcases lt_or_eq_of_le (le_top (a := minValidT r s.objects)) with h1 | h1
      · exact absurd h1 h
      · exact h1
    symm
    rw [List.find?_eq_none]
    intro o _ hpred
    rcases Bool.and_eq_true_iff.mp hpred with ⟨hval, heq⟩
    have : o.intersect r ≠ ⊤ := by
      simp only [isValidHit, decide_eq_true_eq] at hval
      exact hval.2
    exact this (htop ▸ decide_eq_true_eq.mp heq)

/-- C1: `nearestIntersection` returns exactly the minimum reported distance
strictly greater than `ray_epsilon` over all objects reporting a hit, paired
with the first object (in iteration order, so ties go to the earlier object)
reporting that distance; when no object reports such a distance it returns no
object together with the infinite initial distance. -/
theorem nearestIntersection_min (s : Scene) (r : Ray) :
    (s.nearestIntersection r).2 = minValidT r s.objects ∧
    (s.nearestIntersection r).1 =
      s.objects.find? (minPred r (minValidT r s.objects)) :=
  ⟨nearestIntersection_snd s r, nearestIntersection_fst s r⟩

/-- C9: whenever `nearestIntersection` returns an object, the accompanying
distance is that object's own reported distance, strictly greater than
`ray_epsilon` and strictly below infinity, and the object belongs to the
scene; whenever it returns no object the distance is exactly infinity. -/
theorem nearestIntersection_inv (s : Scene) (r : Ray) :
    (∀ o, (s.nearestIntersection r).1 = some o →
      o ∈ s.objects ∧
      (ray_epsilon : realInf) < (s.nearestIntersection r).2 ∧
      (s.nearestIntersection r).2 < ⊤ ∧
      o.intersect r = (s.nearestIntersection r).2) ∧
    ((s.nearestIntersection r).1 = none → (s.nearestIntersection r).2 = ⊤) := by
  constructor
  · intro o ho
    rw [nearestIntersection_fst] at ho
    have hmem := List.mem_of_find?_eq_some ho
    have hpred := List.find?_some ho
    rcases Bool.and_eq_true_iff.mp hpred with ⟨hval, heq⟩
    rw [isValidHit, decide_eq_true_eq] at hval
    have heq2 : o.intersect r = minValidT r s.objects := decide_eq_true_eq.mp heq
    rw [nearestIntersection_snd]
    exact ⟨hmem, heq2 ▸ hval.1, lt_top_iff_ne_top.mpr (heq2 ▸ hval.2), heq2⟩
  · intro hnone
    rw [nearestIntersection_snd]
    by_contra htop
    rcases minValidT_attained r s.objects with h | ⟨o, hol, hov, he⟩
    · exact htop h
    · rw [nearestIntersection_fst, List.find?_eq_none] at hnone
      exact hnone o hol (by simp [minPred, hov, he])

/-- Witness for C9 at a concrete one-object scene. -/
theorem nearestIntersection_inv_witness :
    testObj ∈ testScene.objects ∧
    (ray_epsilon : realInf) < (testScene.nearestIntersection testRay).2 ∧
    (testScene.nearestIntersection testRay).2 < ⊤ ∧
    testObj.intersect testRay = (testScene.nearestIntersection testRay).2 :=
  (nearestIntersection_inv testScene testRay).1 testObj (by
    show (testScene.nearestIntersection testRay).1 = some testObj
    rw [Scene.nearestIntersection]
    show (niStep testRay (none, ⊤) testObj).1 = some testObj
    rw [niStep_select testRay (none, ⊤) testObj
      (by
        show (ray_epsilon : realInf) < ((3 : real) : realInf)
        exact_mod_cast (by norm_num [ray_epsilon] : ray_epsilon < (3 : real)))
      (by
        show ((3 : real) : realInf) < ⊤
        exact WithTop.coe_lt_top (3 : real))])

/-- C6: the renderer's integer hash is exactly the fixed Thomas Wang
avalanche mix described by the spec, its output is a 32-bit value, and it
depends only on the low 32 bits of its input — hence the same input always
produces the same output. -/
theorem hash_is_wang_mix (x : ℕ) :
    hash x = wangMixSpec x ∧ hash x < 4294967296 ∧ hash x = hash (x % 4294967296) := by
  refine ⟨rfl, ?_, ?_⟩
  · exact Nat.mod_lt _ (by norm_num)
  · simp only [hash, Nat.mod_mod_of_dvd x (dvd_refl 4294967296)]

lemma radicalLoop_invariant (base : ℕ) (hb : 2 ≤ base) :
    ∀ (a rd : ℕ) (ibn : real), 0 < ibn → (rd : real) * ibn ≤ 1 - ibn →
      0 < (radicalLoop base (1 / (base : real)) a rd ibn).2 ∧
      ((radicalLoop base (1 / (base : real)) a rd ibn).1 : real) *
          (radicalLoop base (1 / (base : real)) a rd ibn).2 ≤
        1 - (radicalLoop base (1 / (base : real)) a rd ibn).2 := by
  intro a
  induction a using Nat.strong_induction_on with
  | _ a ih =>
    intro rd ibn hpos hle
    by_cases h : a = 0 ∨ base ≤ 1
    · rw [radicalLoop, dif_pos h]
      exact ⟨hpos, hle⟩
    · have hstep : radicalLoop base (1 / (base : real)) a rd ibn =
          radicalLoop base (1 / (base : real)) (a / base)
            (rd * base + (a - base * (a / base))) (ibn * (1 / (base : real))) := by
        rw [radicalLoop, dif_neg h]
      have ha : a ≠ 0 := fun h0 => h (Or.inl h0)
      have hb1 : 1 < base := by omega
      rw [hstep]
      have hd : a - base * (a / base) = a % base :=
        Nat.sub_eq_of_eq_add (by rw [Nat.add_comm]; exact (Nat.div_add_mod a base).symm)
      have hbpos : (0 : real) < (base : real) := by
        exact_mod_cast Nat.lt_of_lt_of_le Nat.zero_lt_one (Nat.le_of_lt hb1)
      have hinv : (0 : real) < 1 / (base : real) := by positivity
      apply ih (a / base) (Nat.div_lt_self (Nat.pos_of_ne_zero ha) hb1)
      · exact mul_pos hpos hinv
      · rw [hd]
        have hdb : ((a % base : ℕ) : real) + 1 ≤ (base : real) := by
          exact_mod_cast Nat.mod_lt a (by omega)
        push_cast
        have h1 : ((rd : real) * (base : real) + ((a % base : ℕ) : real)) *
              (ibn * (1 / (base : real))) =
            (((rd : real) * (base : real) + ((a % base : ℕ) : real)) * ibn) /
              (base : real) := by
          ring
        have h2 : 1 - ibn * (1 / (base : real)) =
            ((base : real) - ibn) / (base : real) := by
          field_simp
        rw [h1, h2, div_le_div_iff_of_pos_right hbpos]
        nlinarith [mul_le_mul_of_nonneg_right hle (le_of_lt hbpos),
          mul_le_mul_of_nonneg_right
            (by linarith : ((a % base : ℕ) : real) ≤ (base : real) - 1)
            (le_of_lt hpos)]

/-- C5: the radical inverse reverses digits and interprets them as a
fraction: at index 1 it returns the reciprocal of the base (so 1/2 in base 2
and 1/3 in base 3), at index 0 it returns 0 for every base, and for every
index and base the capped result stays strictly below 1. -/
theorem RadicalInverse_props (a base : ℕ) (hb : 2 ≤ base) :
    RadicalInverse 1 2 = 1 / 2 ∧ RadicalInverse 1 3 = 1 / 3 ∧
    RadicalInverse 0 base = 0 ∧ RadicalInverse a base < 1 := by
  refine ⟨?_, ?_, ?_, ?_⟩
  · show min _ _ = _
    rw [radicalLoop, dif_neg (by norm_num), radicalLoop, dif_pos (Or.inl rfl)]
    norm_num [DoubleOneMinusEpsilon]
  · show min _ _ = _
    rw [radicalLoop, dif_neg (by norm_num), radicalLoop, dif_pos (Or.inl rfl)]
    norm_num [DoubleOneMinusEpsilon]
  · show min _ _ = _
    rw [radicalLoop, dif_pos (Or.inl rfl)]
    norm_num [DoubleOneMinusEpsilon]
  · obtain ⟨hpos, hle⟩ :=
      radicalLoop_invariant base hb a 0 1 one_pos (by norm_num)
    show min _ _ < 1
    exact lt_of_le_of_lt (min_le_left _ _) (by linarith)

/-- Witness for C5 at index 5, base 3. -/
theorem RadicalInverse_props_witness :
    RadicalInverse 1 2 = 1 / 2 ∧ RadicalInverse 1 3 = 1 / 3 ∧
    RadicalInverse 0 3 = 0 ∧ RadicalInverse 5 3 < 1 :=
  RadicalInverse_props 5 3 (by norm_num)

/-- C8: for operands in [0,1), `wrap01` computes `u + v` when that sum is
below 1 and `u + v - 1` otherwise, and the result stays inside [0,1). -/
theorem wrap01_closure (u v : real) (hu0 : 0 ≤ u) (hu1 : u < 1)
    (hv0 : 0 ≤ v) (hv1 : v < 1) :
    wrap01 u v = (if u + v < 1 then u + v else u + v - 1) ∧
    0 ≤ wrap01 u v ∧ wrap01 u v < 1 := by
  refine ⟨rfl, ?_, ?_⟩ <;>
    · rw [wrap01]
      split <;> linarith

/-- Witness for C8 at u = 1/2, v = 3/4. -/
theorem wrap01_closure_witness :
    wrap01 (1 / 2) (3 / 4) =
        (if (1 / 2 : real) + 3 / 4 < 1 then (1 / 2 : real) + 3 / 4
          else (1 / 2 : real) + 3 / 4 - 1) ∧
    0 ≤ wrap01 (1 / 2) (3 / 4) ∧ wrap01 (1 / 2) (3 / 4) < 1 :=
  wrap01_closure (1 / 2) (3 / 4) (by norm_num) (by norm_num) (by norm_num)
    (by norm_num)

lemma Vec3_add_def (a b : Vec3) : a + b = ⟨a.x + b.x, a.y + b.y, a.z + b.z⟩ := rfl

lemma Vec3_sub_def (a b : Vec3) : a - b = ⟨a.x - b.x, a.y - b.y, a.z - b.z⟩ := rfl

lemma Vec3_mul_def (a b : Vec3) : a * b = ⟨a.x * b.x, a.y * b.y, a.z * b.z⟩ := rfl

lemma Vec3_smul_def (a : Vec3) (q : real) : a * q = ⟨a.x * q, a.y * q, a.z * q⟩ := rfl

lemma Vec3_sdiv_def (a : Vec3) (q : real) : a / q = ⟨a.x / q, a.y / q, a.z / q⟩ := rfl

lemma Vec3_zero_def : (0 : Vec3) = ⟨0, 0, 0⟩ := rfl

lemma Vec3_one_def : (1 : Vec3) = ⟨1, 1, 1⟩ := rfl

lemma vec_zero_add_one_mul (v : Vec3) : (0 : Vec3) + (1 : Vec3) * v = v := by
  rcases v with ⟨a, b, c⟩
  simp [Vec3_add_def, Vec3_mul_def, Vec3_zero_def, Vec3_one_def]

lemma ni_some_mem {s : Scene} {r : Ray} {o : SceneObject}
    (h : (s.nearestIntersection r).1 = some o) : o ∈ s.objects := by
  rw [nearestIntersection_fst] at h
  exact List.mem_of_find?_eq_some h

lemma ni_none_top {s : Scene} {r : Ray}
    (h : (s.nearestIntersection r).1 = none) :
    (s.nearestIntersection r).2 = ⊤ := by
  rw [nearestIntersection_snd]
  by_contra htop
  rcases minValidT_attained r s.objects with h1 | ⟨o, hol, hov, he⟩
  · exact htop h1
  · rw [nearestIntersection_fst, List.find?_eq_none] at h
    exact h o hol (by simp [minPred, hov, he])

lemma bounceLoop_eq_miss (ops : MathOps) (world : Scene) (pass : ℕ)
    (hr : real) (ray : Ray) (tp c : Vec3) (bounce : ℕ) {t : realInf}
    (hres : world.nearestIntersection ray = (none, t)) :
    bounceLoop ops world pass hr ray tp c bounce =
      (c + tp * skyColour ray.d, 1) := by
  rw [bounceLoop.eq_def, hres]

lemma bounceLoop_eq_hit (ops : MathOps) (world : Scene) (pass : ℕ)
    (hr : real) (ray : Ray) (tp c : Vec3) (bounce : ℕ) {obj : SceneObject}
    {t : realInf} (hres : world.nearestIntersection ray = (some obj, t)) :
    bounceLoop ops world pass hr ray tp c bounce =
      if bounce + 1 > max_bounces then
        (directLight ops world obj (ray.o + ray.d * t.untop' 0)
          (obj.getNormal (ray.o + ray.d * t.untop' 0)) tp c, 1)
      else
        ((bounceLoop ops world pass hr
            ⟨ray.o + ray.d * t.untop' 0,
              scatterDir ops pass hr (bounce + 1)
                (obj.getNormal (ray.o + ray.d * t.untop' 0))⟩
            (tp * obj.colour)
            (directLight ops world obj (ray.o + ray.d * t.untop' 0)
              (obj.getNormal (ray.o + ray.d * t.untop' 0)) tp c)
            (bounce + 1)).1,
          (bounceLoop ops world pass hr
            ⟨ray.o + ray.d * t.untop' 0,
              scatterDir ops pass hr (bounce + 1)
                (obj.getNormal (ray.o + ray.d * t.untop' 0))⟩
            (tp * obj.colour)
            (directLight ops world obj (ray.o + ray.d * t.untop' 0)
              (obj.getNormal (ray.o + ray.d * t.untop' 0)) tp c)
            (bounce + 1)).2 + 1) := by
  rw [bounceLoop.eq_def, hres]
  rfl

/-- C2: with zero scene objects every nearest-intersection query reports no
hit, and `generateColour` returns exactly the sky gradient of the primary
camera ray's direction — the two tones interpolated by the clamped vertical
component — with no light or bounce contribution. -/
theorem emptyScene_sky (ops : MathOps) (x y frame pass width height : ℕ)
    (frames : ℤ) (world : Scene) (h : world.objects = []) :
    (∀ r, world.nearestIntersection r = (none, (⊤ : realInf))) ∧
    generateColour ops x y frame pass width height frames world =
      skyColour (cameraRay ops x y frame pass width height frames).d ∧
    skyColour (cameraRay ops x y frame pass width height frames).d =
      sky_hz + (sky_up - sky_hz) *
        max 0 (cameraRay ops x y frame pass width height frames).d.y := by
  have hni : ∀ r, world.nearestIntersection r = (none, (⊤ : realInf)) := by
    intro r
    rw [Scene.nearestIntersection, h]
    rfl
  refine ⟨hni, ?_, rfl⟩
  rw [generateColour,
    bounceLoop_eq_miss ops world pass _ _ 1 0 0 (hni _)]
  exact vec_zero_add_one_mul _

/-- Witness for C2 on the empty scene at concrete inputs. -/
theorem emptyScene_sky_witness :
    (∀ r, emptyScene.nearestIntersection r = (none, (⊤ : realInf))) ∧
    generateColour testOps 0 0 0 0 1 1 1 emptyScene =
      skyColour (cameraRay testOps 0 0 0 0 1 1 1).d ∧
    skyColour (cameraRay testOps 0 0 0 0 1 1 1).d =
      sky_hz + (sky_up - sky_hz) *
        max 0 (cameraRay testOps 0 0 0 0 1 1 1).d.y :=
  emptyScene_sky testOps 0 0 0 0 1 1 1 emptyScene rfl

lemma bounceLoop_count (ops : MathOps) (world : Scene) (pass : ℕ) (hr : real) :
    ∀ (fuel : ℕ) (ray : Ray) (tp c : Vec3) (bounce : ℕ),
      max_bounces + 1 - bounce < fuel →
      bounce ≤ max_bounces →
      (bounceLoop ops world pass hr ray tp c bounce).2 ≤ max_bounces + 1 - bounce := by
  intro fuel
  induction fuel with
  | zero =>
    intro ray tp c bounce hf hb
    exact absurd hf (Nat.not_lt_zero _)
  | succ n ih =>
    intro ray tp c bounce hf hb
    rcases hres : world.nearestIntersection ray with ⟨o, t⟩
    cases o with
    | none =>
      rw [bounceLoop_eq_miss ops world pass hr ray tp c bounce hres]
      show 1 ≤ max_bounces + 1 - bounce
      omega
    | some obj =>
      rw [bounceLoop_eq_hit ops world pass hr ray tp c bounce hres]
      by_cases hcap : bounce + 1 > max_bounces
      · rw [if_pos hcap]
        show 1 ≤ max_bounces + 1 - bounce
        omega
      · rw [if_neg hcap]
        have hrec := ih
          ⟨ray.o + ray.d * t.untop' 0,
            scatterDir ops pass hr (bounce + 1)
              (obj.getNormal (ray.o + ray.d * t.untop' 0))⟩
          (tp * obj.colour)
          (directLight ops world obj (ray.o + ray.d * t.untop' 0)
            (obj.getNormal (ray.o + ray.d * t.untop' 0)) tp c)
          (bounce + 1) (by omega) (by omega)
        dsimp only
        omega

/-- C3: the bounce loop always terminates after at most `max_bounces + 1`
iterations — hence at most that many primary intersection tests — whatever
the scene, including scenes where every ray hits an object. -/
theorem bounceLoop_terminates (ops : MathOps) (world : Scene) (pass : ℕ)
    (hr : real) (ray : Ray) (tp c : Vec3) :
    (bounceLoop ops world pass hr ray tp c 0).2 ≤ max_bounces + 1 := by
  have h := bounceLoop_count ops world pass hr (max_bounces + 2) ray tp c 0
    (by omega) (by omega)
  simpa using h

/-- C4: the direct-lighting block leaves the contribution unchanged exactly
when some scene object occludes the shadow ray — reporting a distance
strictly between `ray_epsilon` and the distance to the light — and otherwise
adds the throughput-scaled Lambertian term. -/
theorem directLight_occlusion (ops : MathOps) (world : Scene)
    (obj : SceneObject) (hit_p normal throughput contribution : Vec3) :
    directLight ops world obj hit_p normal throughput contribution =
      if ∃ o ∈ world.objects,
          (ray_epsilon : realInf) < o.intersect ⟨hit_p, lightDir ops hit_p⟩ ∧
          o.intersect ⟨hit_p, lightDir ops hit_p⟩ <
            ((lightLen ops hit_p : real) : realInf) then
        contribution
      else contribution + throughput * reflColour ops obj hit_p normal := by
  have hiff :
      (world.nearestIntersection ⟨hit_p, lightDir ops hit_p⟩).2 <
          ((lightLen ops hit_p : real) : realInf) ↔
        ∃ o ∈ world.objects,
          (ray_epsilon : realInf) < o.intersect ⟨hit_p, lightDir ops hit_p⟩ ∧
          o.intersect ⟨hit_p, lightDir ops hit_p⟩ <
            ((lightLen ops hit_p : real) : realInf) := by
    rw [nearestIntersection_snd, minValidT_lt_iff]
    constructor
    · rintro ⟨o, ho, hv, hlt⟩
      rw [isValidHit, decide_eq_true_eq] at hv
      exact ⟨o, ho, hv.1, hlt⟩
    · rintro ⟨o, ho, heps, hlt⟩
      refine ⟨o, ho, ?_, hlt⟩
      rw [isValidHit, decide_eq_true_eq]
      exact ⟨heps, ne_top_of_lt hlt⟩
  simp only [directLight]
  by_cases hocc : ∃ o ∈ world.objects,
      (ray_epsilon : realInf) < o.intersect ⟨hit_p, lightDir ops hit_p⟩ ∧
      o.intersect ⟨hit_p, lightDir ops hit_p⟩ <
        ((lightLen ops hit_p : real) : realInf)
  · rw [if_pos hocc]
    have hlt := hiff.mpr hocc
    have hcond :
        ¬((world.nearestIntersection ⟨hit_p, lightDir ops hit_p⟩).1 = none ∨
          ((lightLen ops hit_p : real) : realInf) ≤
            (world.nearestIntersection ⟨hit_p, lightDir ops hit_p⟩).2) := by
      rintro (h1 | h2)
      · rw [ni_none_top h1] at hlt
        exact not_top_lt hlt
      · exact absurd hlt (not_lt.mpr h2)
    rw [if_neg hcond]
  · rw [if_neg hocc]
    have hge : ((lightLen ops hit_p : real) : realInf) ≤
        (world.nearestIntersection ⟨hit_p, lightDir ops hit_p⟩).2 :=
      not_lt.mp (fun hlt => hocc (hiff.mp hlt))
    rw [if_pos (Or.inr hge)]

lemma primes_mem (i : Fin num_primes) : primes i ∈ [2, 3, 5, 7, 11, 13] := by
  fin_cases i <;> decide

/-- C7: the two diffuse-scatter sampling dimensions of the bounce with
counter value `b` feed the radical inverse of the pass index with the prime
bases at cyclic offsets `(3 + 2b) % 6` and `(3 + 2b + 1) % 6` within the
list \x7b2, 3, 5, 7, 11, 13\x7d, combined with the per-pixel hash offset by
`wrap01`; in particular the three performed bounces use the base pairs
(13, 2), (3, 5) and (7, 11). -/
theorem reflSample_bases (pass : ℕ) (hr : real) (b : ℕ) :
    reflSample pass hr b 0 =
      wrap01 (RadicalInverse pass
        (primes ⟨(3 + 2 * b) % 6, Nat.mod_lt _ (by norm_num)⟩)) hr ∧
    reflSample pass hr b 1 =
      wrap01 (RadicalInverse pass
        (primes ⟨(3 + 2 * b + 1) % 6, Nat.mod_lt _ (by norm_num)⟩)) hr ∧
    (∀ k, reflBase b k ∈ [2, 3, 5, 7, 11, 13]) ∧
    reflBase 1 0 = 13 ∧ reflBase 1 1 = 2 ∧ reflBase 2 0 = 3 ∧
    reflBase 2 1 = 5 ∧ reflBase 3 0 = 7 ∧ reflBase 3 1 = 11 := by
  refine ⟨?_, ?_,
    fun k => primes_mem ⟨(3 + b * 2 + k) % num_primes, Nat.mod_lt _ (by norm_num)⟩,
    by decide, by decide, by decide, by decide, by decide, by decide⟩
  · have h : 3 + b * 2 + 0 = 3 + 2 * b := by ring
    simp only [reflSample, reflBase, h]
  · have h : 3 + b * 2 + 1 = 3 + 2 * b + 1 := by ring
    simp only [reflSample, reflBase, h]

lemma Vec3.Nonneg.add {a b : Vec3} (ha : a.Nonneg) (hb : b.Nonneg) :
    (a + b).Nonneg :=
  ⟨add_nonneg ha.1 hb.1, add_nonneg ha.2.1 hb.2.1, add_nonneg ha.2.2 hb.2.2⟩

lemma Vec3.Nonneg.mul {a b : Vec3} (ha : a.Nonneg) (hb : b.Nonneg) :
    (a * b).Nonneg :=
  ⟨mul_nonneg ha.1 hb.1, mul_nonneg ha.2.1 hb.2.1, mul_nonneg ha.2.2 hb.2.2⟩

lemma Vec3.Nonneg.smul {a : Vec3} {q : real} (ha : a.Nonneg) (hq : 0 ≤ q) :
    (a * q).Nonneg :=
  ⟨mul_nonneg ha.1 hq, mul_nonneg ha.2.1 hq, mul_nonneg ha.2.2 hq⟩

lemma Vec3.Nonneg.sdiv {a : Vec3} {q : real} (ha : a.Nonneg) (hq : 0 ≤ q) :
    (a / q).Nonneg :=
  ⟨div_nonneg ha.1 hq, div_nonneg ha.2.1 hq, div_nonneg ha.2.2 hq⟩

lemma sky_nonneg {d : Vec3} (h : d.y ≤ 1) : (skyColour d).Nonneg := by
  have h0 : 0 ≤ max 0 d.y := le_max_left 0 d.y
  have h1 : max 0 d.y ≤ 1 := max_le (by norm_num) h
  refine ⟨?_, ?_, ?_⟩ <;>
    · simp only [skyColour, sky_up, sky_hz, Vec3_add_def, Vec3_sub_def,
        Vec3_smul_def]
      nlinarith

lemma lightLn2_nonneg (hit_p : Vec3) : 0 ≤ lightLn2 hit_p := by
  simp only [lightLn2, dot]
  exact add_nonneg (add_nonneg (mul_self_nonneg _) (mul_self_nonneg _))
    (mul_self_nonneg _)

lemma reflColour_nonneg (ops : MathOps) (obj : SceneObject)
    (hit_p normal : Vec3) (h : obj.colour.Nonneg) :
    (reflColour ops obj hit_p normal).Nonneg := by
  simp only [reflColour]
  exact Vec3.Nonneg.smul
    (Vec3.Nonneg.sdiv (Vec3.Nonneg.smul h (le_max_left 0 _))
      (lightLn2_nonneg hit_p)) (by norm_num)

lemma directLight_nonneg (ops : MathOps) (world : Scene) (obj : SceneObject)
    (hit_p normal tp c : Vec3) (hcol : obj.colour.Nonneg) (htp : tp.Nonneg)
    (hc : c.Nonneg) :
    (directLight ops world obj hit_p normal tp c).Nonneg := by
  simp only [directLight]
  split
  · exact hc.add (htp.mul (reflColour_nonneg ops obj hit_p normal hcol))
  · exact hc

lemma scatterDir_y_le {ops : MathOps}
    (hnorm : ∀ v, (ops.normalise v).y ≤ 1) (pass : ℕ) (hr : real)
    (b : ℕ) (n : Vec3) : (scatterDir ops pass hr b n).y ≤ 1 := by
  simp only [scatterDir]
  exact hnorm _

lemma cameraRay_d_y_le {ops : MathOps}
    (hnorm : ∀ v, (ops.normalise v).y ≤ 1)
    (x y frame pass width height : ℕ) (frames : ℤ) :
    (cameraRay ops x y frame pass width height frames).d.y ≤ 1 := by
  simp only [cameraRay]
  exact hnorm _

lemma bounceLoop_nonneg (ops : MathOps) (world : Scene) (pass : ℕ) (hr : real)
    (hcol : ∀ o ∈ world.objects, (o.colour).Nonneg)
    (hnorm : ∀ v, (ops.normalise v).y ≤ 1) :
    ∀ (fuel : ℕ) (ray : Ray) (tp c : Vec3) (bounce : ℕ),
      max_bounces + 1 - bounce < fuel →
      ray.d.y ≤ 1 → tp.Nonneg → c.Nonneg →
      ((bounceLoop ops world pass hr ray tp c bounce).1).Nonneg := by
  intro fuel
  induction fuel with
  | zero =>
    intro ray tp c bounce hf hray htp hc
    exact absurd hf (Nat.not_lt_zero _)
  | succ n ih =>
    intro ray tp c bounce hf hray htp hc
    rcases hres : world.nearestIntersection ray with ⟨o, t⟩
    cases o with
    | none =>
      rw [bounceLoop_eq_miss ops world pass hr ray tp c bounce hres]
      exact hc.add (htp.mul (sky_nonneg hray))
    | some obj =>
      have hobj : obj ∈ world.objects := ni_some_mem (by rw [hres])
      rw [bounceLoop_eq_hit ops world pass hr ray tp c bounce hres]
      by_cases hcap : bounce + 1 > max_bounces
      · rw [if_pos hcap]
        exact directLight_nonneg ops world obj _ _ tp c (hcol obj hobj) htp hc
      · rw [if_neg hcap]
        dsimp only
        exact ih _ (tp * obj.colour) _ (bounce + 1) (by omega)
          (scatterDir_y_le hnorm pass hr (bounce + 1) _)
          (htp.mul (hcol obj hobj))
          (directLight_nonneg ops world obj _ _ tp c (hcol obj hobj) htp hc)

/-- C10: when every scene object's colour is non-negative per channel and
normalised directions have vertical component at most 1, the colour returned
by `generateColour` is non-negative per channel (the throughput and
contribution accumulators stay non-negative throughout the loop). -/
theorem generateColour_nonneg (ops : MathOps)
    (x y frame pass width height : ℕ) (frames : ℤ) (world : Scene)
    (hcol : ∀ o ∈ world.objects, (o.colour).Nonneg)
    (hnorm : ∀ v, (ops.normalise v).y ≤ 1) :
    (generateColour ops x y frame pass width height frames world).Nonneg := by
  rw [generateColour]
  exact bounceLoop_nonneg ops world pass _ hcol hnorm (max_bounces + 2) _ 1 0 0
    (by omega) (cameraRay_d_y_le hnorm x y frame pass width height frames)
    ⟨by simp [Vec3_one_def], by simp [Vec3_one_def], by simp [Vec3_one_def]⟩
    ⟨le_refl 0, le_refl 0, le_refl 0⟩

/-- Witness for C10 at the sample one-object scene and sample operations. -/
theorem generateColour_nonneg_witness :
    (generateColour testOps 0 0 0 0 1 1 1 testScene).Nonneg :=
  generateColour_nonneg testOps 0 0 0 0 1 1 1 testScene
    (by
      intro o ho
      have : o = testObj := List.mem_singleton.mp ho
      rw [this]
      exact ⟨by norm_num [testObj], by norm_num [testObj], by norm_num [testObj]⟩)
    (fun v => by norm_num [testOps])

end FractalTracer
